import Mathlib

/-!
Verification of the bo-pi preflight permission/policy decision engine.

Strings from the TypeScript source are modelled as `List Char` (`Str`), so
that universally quantified statements can be settled by list induction and
concrete cases by `decide`.  POSIX path separators are assumed throughout
(`toPosixPath` from the source is the identity under this assumption).
JavaScript string trimming is modelled over the common whitespace
characters.
-/

abbrev Str := List Char

/-- JavaScript whitespace (the subset relevant here: ASCII whitespace plus
NBSP and BOM, which is what `String.prototype.trim` strips on the inputs
this development reasons about). -/
def isJsWhitespace (c : Char) : Bool :=
  c = ' ' || c = '\t' || c = '\n' || c = '\r' ||
    c = Char.ofNat 0x0b || c = Char.ofNat 0x0c || c = Char.ofNat 0xa0 ||
    c = Char.ofNat 0xfeff

/-- Model of `String.prototype.trim`. -/
def jsTrim (s : Str) : Str :=
  ((s.dropWhile isJsWhitespace).reverse.dropWhile isJsWhitespace).reverse

/-- Model of `String.prototype.toLowerCase` (ASCII case folding). -/
def jsToLower (s : Str) : Str :=
  s.map Char.toLower

/-- JavaScript regular-expression line terminators: `.` in a regex without
the `s` flag matches any character except these. -/
def isLineTerminator (c : Char) : Bool :=
  c = '\n' || c = '\r' || c = Char.ofNat 0x2028 || c = Char.ofNat 0x2029

/-- `strStartsWith pre s` models `s.startsWith(pre)`. -/
def strStartsWith (pre s : Str) : Bool :=
  match pre with
  | [] => true
  | p :: ps =>
    match s with
    | [] => false
    | c :: cs => if p = c then strStartsWith ps cs else false

/-- `strEndsWith suf s` models `s.endsWith(suf)`. -/
def strEndsWith (suf s : Str) : Bool :=
  strStartsWith suf.reverse s.reverse

/-- Split a list at the first occurrence of `ch` (models `indexOf` plus the
two `slice` calls around it): `some (before, after)` with
`l = before ++ ch :: after`, or `none` when `ch` does not occur. -/
def splitAtFirst (ch : Char) : Str → Option (Str × Str)
  | [] => none
  | c :: cs =>
    if c = ch then some ([], cs)
    else (splitAtFirst ch cs).map (fun p => (c :: p.1, p.2))

/-- Fuel-based worker for `wildMatch` (the fuel only serves structural
termination; `wildMatch` always supplies enough). -/
def wildMatchAux : Nat → Str → Str → Bool
  | 0, ps, cs => ps.isEmpty && cs.isEmpty
  | fuel + 1, ps, cs =>
    match ps with
    | [] => cs.isEmpty
    | p :: ps =>
      if p = '*' then
        wildMatchAux fuel ps cs ||
          (match cs with
            | [] => false
            | c :: cs2 => !isLineTerminator c && wildMatchAux fuel (p :: ps) cs2)
      else
        match cs with
        | [] => false
        | c :: cs2 => p == c && wildMatchAux fuel ps cs2

/-- Model of `wildcardToRegExp(pattern).test(input)` from
`permissions/matching.ts`: the escaping step makes every character of the
pattern a literal except `*`, which becomes `.*`; the regex is anchored on
both sides.  Since JavaScript `.` (without the `s` flag) does not match
line terminators, each `*` matches an arbitrary run of
non-line-terminator characters. -/
def wildMatch (ps cs : Str) : Bool :=
  wildMatchAux (ps.length + cs.length) ps cs

theorem wildMatchAux_congr :
    ∀ (n fuel1 fuel2 : Nat) (ps cs : Str), ps.length + cs.length ≤ n →
      ps.length + cs.length ≤ fuel1 → ps.length + cs.length ≤ fuel2 →
      wildMatchAux fuel1 ps cs = wildMatchAux fuel2 ps cs := by
  intro n
  induction n with
  | zero =>
    intro fuel1 fuel2 ps cs h h1 h2
    have hps : ps = [] := by cases ps <;> simp_all
    have hcs : cs = [] := by cases cs <;> simp_all
    subst hps; subst hcs
    cases fuel1 <;> cases fuel2 <;> rfl
  | succ n ih =>
    intro fuel1 fuel2 ps cs h h1 h2
    cases ps with
    | nil =>
      cases fuel1 <;> cases fuel2 <;> simp [wildMatchAux]
    | cons p ps =>
      obtain ⟨f1, rfl⟩ : ∃ f1, fuel1 = f1 + 1 := ⟨fuel1 - 1, by simp at h1; omega⟩
      obtain ⟨f2, rfl⟩ : ∃ f2, fuel2 = f2 + 1 := ⟨fuel2 - 1, by simp at h2; omega⟩
      simp only [wildMatchAux]
      simp only [List.length_cons] at h h1 h2
      by_cases hp : p = '*'
      · rw [if_pos hp, if_pos hp]
        have hmain : wildMatchAux f1 ps cs = wildMatchAux f2 ps cs :=
          ih f1 f2 ps cs (by omega) (by omega) (by omega)
        rw [hmain]
        cases cs with
        | nil => rfl
        | cons c cs2 =>
          simp only [List.length_cons] at h h1 h2
          have hrest : wildMatchAux f1 (p :: ps) cs2 = wildMatchAux f2 (p :: ps) cs2 :=
            ih f1 f2 (p :: ps) cs2 (by simp only [List.length_cons]; omega)
              (by simp only [List.length_cons]; omega)
              (by simp only [List.length_cons]; omega)
          simp [hrest]
      · rw [if_neg hp, if_neg hp]
        cases cs with
        | nil => rfl
        | cons c cs2 =>
          simp only [List.length_cons] at h h1 h2
          have hrest : wildMatchAux f1 ps cs2 = wildMatchAux f2 ps cs2 :=
            ih f1 f2 ps cs2 (by omega) (by omega) (by omega)
          simp [hrest]

theorem wildMatch_eq_aux (fuel : Nat) (ps cs : Str) (h : ps.length + cs.length ≤ fuel) :
    wildMatch ps cs = wildMatchAux fuel ps cs :=
  wildMatchAux_congr (ps.length + cs.length) _ fuel ps cs le_rfl le_rfl h

/-- Model of `normalizeBashPattern`: trim, then rewrite a trailing `:*`
into a trailing ` *`. -/
def normalizeBashPattern (pattern : Str) : Str :=
  let trimmed := jsTrim pattern
  if strEndsWith [':', '*'] trimmed then
    trimmed.dropLast.dropLast ++ [' ', '*']
  else trimmed

/-- Model of `matchBashPattern`. -/
def matchBashPattern (pattern command : Str) : Bool :=
  wildMatch (normalizeBashPattern pattern) command

theorem wildMatch_nil (cs : Str) : wildMatch [] cs = cs.isEmpty := by
  rw [wildMatch_eq_aux (cs.length + 1) _ _ (by simp)]
  simp [wildMatchAux]

theorem wildMatch_cons_star (ps cs : Str) :
    wildMatch ('*' :: ps) cs =
      (wildMatch ps cs ||
        (match cs with
          | [] => false
          | c :: cs2 => !isLineTerminator c && wildMatch ('*' :: ps) cs2)) := by
  rw [wildMatch_eq_aux (ps.length + cs.length + 1) _ _
    (by simp only [List.length_cons]; omega)]
  simp only [wildMatchAux]
  simp only [if_true]
  congr 1
  cases cs with
  | nil => rfl
  | cons c cs2 =>
    simp only []
    congr 1
    exact (wildMatch_eq_aux _ _ _ (by simp only [List.length_cons]; omega)).symm

theorem wildMatch_cons_lit (p : Char) (ps cs : Str) (h : p ≠ '*') :
    wildMatch (p :: ps) cs =
      (match cs with
        | [] => false
        | c :: cs2 => p == c && wildMatch ps cs2) := by
  rw [wildMatch_eq_aux (ps.length + cs.length + 1) _ _
    (by simp only [List.length_cons]; omega)]
  simp only [wildMatchAux]
  rw [if_neg h]
  cases cs with
  | nil => rfl
  | cons c cs2 =>
    simp only []
    congr 1
    exact (wildMatch_eq_aux _ _ _ (by simp only [List.length_cons]; omega)).symm

theorem wildMatch_star_nil (ps : Str) :
    wildMatch ('*' :: ps) [] = wildMatch ps [] := by
  rw [wildMatch_cons_star]
  simp

theorem wildMatch_star_consInput (ps : Str) (c : Char) (cs : Str) :
    wildMatch ('*' :: ps) (c :: cs) =
      (wildMatch ps (c :: cs) || (!isLineTerminator c && wildMatch ('*' :: ps) cs)) := by
  rw [wildMatch_cons_star]

theorem wildMatch_lit_nil (p : Char) (ps : Str) (h : p ≠ '*') :
    wildMatch (p :: ps) [] = false := by
  rw [wildMatch_cons_lit _ _ _ h]

theorem wildMatch_lit_consInput (p : Char) (ps : Str) (c : Char) (cs : Str) (h : p ≠ '*') :
    wildMatch (p :: ps) (c :: cs) = (p == c && wildMatch ps cs) := by
  rw [wildMatch_cons_lit _ _ _ h]

theorem wildMatch_self (s : Str) : wildMatch s s = true := by
  induction s with
  | nil => decide
  | cons c s ih =>
    by_cases h : c = '*'
    · subst h
      rw [wildMatch_star_consInput, wildMatch_cons_star]
      simp [ih, isLineTerminator]
    · rw [wildMatch_lit_consInput _ _ _ _ h]
      simp [ih]

/-- A lone `*` matches any input free of line terminators. -/
theorem wildMatch_star_all (cs : Str) (h : ∀ c ∈ cs, isLineTerminator c = false) :
    wildMatch ['*'] cs = true := by
  induction cs with
  | nil =>
    rw [wildMatch_star_nil]
    decide
  | cons c cs ih =>
    rw [wildMatch_star_consInput]
    have hc : isLineTerminator c = false := h c (by simp)
    have ih2 : wildMatch ['*'] cs = true := ih (fun x hx => h x (by simp [hx]))
    simp [hc, ih2]

/-- A star-free literal prefix shared by pattern and input can be peeled
off. -/
theorem wildMatch_append_literal (lit p cs : Str) (h : '*' ∉ lit) :
    wildMatch (lit ++ p) (lit ++ cs) = wildMatch p cs := by
  induction lit with
  | nil => simp
  | cons a l ih =>
    have ha : a ≠ '*' := fun hEq => h (hEq ▸ List.mem_cons_self a l)
    have hl : '*' ∉ l := fun hm => h (List.mem_cons_of_mem a hm)
    rw [List.cons_append, List.cons_append, wildMatch_lit_consInput _ _ _ _ ha]
    simp [ih hl]

/-! ### JSON values

Tool-call arguments and the settings documents are JSON.  Arrays and
objects are separate mutual inductives so that all recursions over the
nested structure are plain structural recursions.  JSON numbers are
modelled as integers (every numeric literal appearing in this development
is integral). -/

mutual
inductive Json where
  | null
  | bool (b : Bool)
  | num (n : Int)
  | str (s : Str)
  | arr (items : JsonList)
  | obj (fields : JsonFields)
deriving DecidableEq

inductive JsonList where
  | nil
  | cons (head : Json) (tail : JsonList)
deriving DecidableEq

inductive JsonFields where
  | nil
  | cons (key : Str) (value : Json) (tail : JsonFields)
deriving DecidableEq
end

/-- Property lookup on a JSON object (JavaScript `record[key]`). -/
def fieldsGet : JsonFields → Str → Option Json
  | .nil, _ => none
  | .cons k v rest, key => if k = key then some v else fieldsGet rest key

/-- Number of keys of a JSON object (`Object.keys(record).length`). -/
def fieldsLength : JsonFields → Nat
  | .nil => 0
  | .cons _ _ rest => fieldsLength rest + 1

/-- JavaScript truthiness of a JSON value (`!value`). -/
def jsTruthy : Json → Bool
  | .null => false
  | .bool b => b
  | .num n => n != 0
  | .str s => !s.isEmpty
  | .arr _ => true
  | .obj _ => true

mutual
/-- Model of `deepEqual` from `utils/json.ts`: structural equality that
ignores object key order. -/
def deepEqual : Json → Json → Bool
  | .null, .null => true
  | .bool a, .bool b => a == b
  | .num a, .num b => a == b
  | .str a, .str b => a == b
  | .arr a, .arr b => deepEqualList a b
  | .obj a, .obj b => fieldsLength a == fieldsLength b && deepEqualFieldsIn a b
  | _, _ => false

def deepEqualList : JsonList → JsonList → Bool
  | .nil, .nil => true
  | .cons a as, .cons b bs => deepEqual a b && deepEqualList as bs
  | _, _ => false

/-- Every key of the first object exists in the second with a
`deepEqual` value. -/
def deepEqualFieldsIn : JsonFields → JsonFields → Bool
  | .nil, _ => true
  | .cons k v rest, b =>
    (match fieldsGet b k with
      | some w => deepEqual v w
      | none => false) && deepEqualFieldsIn rest b
end

/-- Lexicographic string order by code unit (JavaScript default key
comparison used by `Object.keys(...).sort()`). -/
def strLe (a b : Str) : Bool :=
  match a with
  | [] => true
  | x :: xs =>
    match b with
    | [] => false
    | y :: ys => if x = y then strLe xs ys else decide (x.val < y.val)

/-- Insertion into a key-sorted field list. -/
def fieldsInsert (k : Str) (v : Json) : JsonFields → JsonFields
  | .nil => .cons k v .nil
  | .cons k2 v2 rest =>
    if strLe k k2 then .cons k v (.cons k2 v2 rest)
    else .cons k2 v2 (fieldsInsert k v rest)

/-- Insertion sort of an object's fields by key. -/
def fieldsSortByKey : JsonFields → JsonFields
  | .nil => .nil
  | .cons k v rest => fieldsInsert k v (fieldsSortByKey rest)

mutual
/-- Model of `sortKeys` from `utils/json.ts`: recursively order object
keys. -/
def sortKeys : Json → Json
  | .arr items => .arr (sortKeysList items)
  | .obj fields => .obj (fieldsSortByKey (sortKeysFields fields))
  | j => j

def sortKeysList : JsonList → JsonList
  | .nil => .nil
  | .cons a rest => .cons (sortKeys a) (sortKeysList rest)

def sortKeysFields : JsonFields → JsonFields
  | .nil => .nil
  | .cons k v rest => .cons k (sortKeys v) (sortKeysFields rest)
end

/-- Hexadecimal digit for JSON control-character escapes. -/
def hexDigitChar (n : Nat) : Char :=
  Char.ofNat (if n < 10 then 48 + n else 87 + n)

/-- JSON string escaping as performed by `JSON.stringify`. -/
def escapeJsonChar (c : Char) : Str :=
  if c = '"' then ['\\', '"']
  else if c = '\\' then ['\\', '\\']
  else if c = '\n' then ['\\', 'n']
  else if c = '\t' then ['\\', 't']
  else if c = '\r' then ['\\', 'r']
  else if c = Char.ofNat 8 then ['\\', 'b']
  else if c = Char.ofNat 12 then ['\\', 'f']
  else if c.toNat < 32 then
    let n := c.toNat
    '\\' :: 'u' :: '0' :: '0' :: hexDigitChar (n / 16) :: hexDigitChar (n % 16) :: []
  else [c]

def escapeJsonStr (s : Str) : Str :=
  (s.map escapeJsonChar).flatten

/-- Decimal rendering of an integer (JavaScript number stringification for
integral values). -/
def intToStr (n : Int) : Str :=
  if n < 0 then '-' :: Nat.toDigits 10 (-n).toNat else Nat.toDigits 10 n.toNat

mutual
/-- Model of `JSON.stringify` (no indentation). -/
def jsonStringify : Json → Str
  | .null => "null".toList
  | .bool b => (if b then "true" else "false").toList
  | .num n => intToStr n
  | .str s => '"' :: escapeJsonStr s ++ ['"']
  | .arr items => '[' :: jsonStringifyList items ++ [']']
  | .obj fields => '\x7b' :: jsonStringifyFields fields ++ ['\x7d']

def jsonStringifyList : JsonList → Str
  | .nil => []
  | .cons a .nil => jsonStringify a
  | .cons a (.cons b rest) => jsonStringify a ++ ',' :: jsonStringifyList (.cons b rest)

def jsonStringifyFields : JsonFields → Str
  | .nil => []
  | .cons k v .nil => '"' :: escapeJsonStr k ++ '"' :: ':' :: jsonStringify v
  | .cons k v (.cons k2 v2 rest) =>
    ('"' :: escapeJsonStr k ++ '"' :: ':' :: jsonStringify v) ++
      ',' :: jsonStringifyFields (.cons k2 v2 rest)
end

/-- Model of `stableStringify` from `utils/json.ts` (the `try`/`catch`
cannot fire on the JSON values modelled here, so the result is total). -/
def stableStringify (j : Json) : Str :=
  jsonStringify (sortKeys j)

/-! ### JSON parsing

Model of `JSON.parse` for the fragment produced by `stableStringify` and
appearing in `args:` rule specifiers: objects, arrays, strings with the
standard escapes, integral numbers, booleans and `null`.  Parsing a
fractional or exponent number yields `none` (numbers are modelled as
integers); `JSON.parse` failures are `none`. -/

def skipJsonWs (s : Str) : Str :=
  s.dropWhile (fun c => c = ' ' || c = '\t' || c = '\n' || c = '\r')

def hexDigitValue (c : Char) : Option Nat :=
  let n := c.toNat
  if 48 ≤ n ∧ n ≤ 57 then some (n - 48)
  else if 97 ≤ n ∧ n ≤ 102 then some (n - 87)
  else if 65 ≤ n ∧ n ≤ 70 then some (n - 55)
  else none

def parseJsonStringBody (fuel : Nat) (s : Str) : Option (Str × Str) :=
  match fuel with
  | 0 => none
  | fuel + 1 =>
    match s with
    | [] => none
    | c :: cs =>
      if c = '"' then some ([], cs)
      else if c = '\\' then
        match cs with
        | [] => none
        | e :: cs2 =>
          if e = 'u' then
            match cs2 with
            | h1 :: h2 :: h3 :: h4 :: cs3 =>
              match hexDigitValue h1, hexDigitValue h2, hexDigitValue h3, hexDigitValue h4 with
              | some a, some b, some c4, some d =>
                (parseJsonStringBody fuel cs3).map
                  (fun p => (Char.ofNat (a * 4096 + b * 256 + c4 * 16 + d) :: p.1, p.2))
              | _, _, _, _ => none
            | _ => none
          else
            let dec : Option Char :=
              if e = '"' then some '"'
              else if e = '\\' then some '\\'
              else if e = '/' then some '/'
              else if e = 'n' then some '\n'
              else if e = 't' then some '\t'
              else if e = 'r' then some '\r'
              else if e = 'b' then some (Char.ofNat 8)
              else if e = 'f' then some (Char.ofNat 12)
              else none
            match dec with
            | none => none
            | some d => (parseJsonStringBody fuel cs2).map (fun p => (d :: p.1, p.2))
      else (parseJsonStringBody fuel cs).map (fun p => (c :: p.1, p.2))

def digitsToNatAux (acc : Nat) : Str → Nat
  | [] => acc
  | d :: ds => digitsToNatAux (10 * acc + (d.toNat - 48)) ds

def digitsToNat (ds : Str) : Nat :=
  digitsToNatAux 0 ds

def parseJsonNat (s : Str) : Option (Nat × Str) :=
  let ds := s.takeWhile Char.isDigit
  let rest := s.dropWhile Char.isDigit
  if ds.isEmpty then none
  else
    match rest with
    | c :: _ =>
      if c = '.' ∨ c = 'e' ∨ c = 'E' then none else some (digitsToNat ds, rest)
    | [] => some (digitsToNat ds, rest)

mutual
def parseJsonVal (fuel : Nat) (s : Str) : Option (Json × Str) :=
  match fuel with
  | 0 => none
  | fuel + 1 =>
    match skipJsonWs s with
    | [] => none
    | c :: cs =>
      if c = 'n' then
        if strStartsWith ['u', 'l', 'l'] cs then some (.null, cs.drop 3) else none
      else if c = 't' then
        if strStartsWith ['r', 'u', 'e'] cs then some (.bool true, cs.drop 3) else none
      else if c = 'f' then
        if strStartsWith ['a', 'l', 's', 'e'] cs then some (.bool false, cs.drop 4) else none
      else if c = '"' then
        (parseJsonStringBody (cs.length + 1) cs).map (fun p => (.str p.1, p.2))
      else if c = '-' then
        (parseJsonNat cs).map (fun p => (.num (-(p.1 : Int)), p.2))
      else if c.isDigit then
        (parseJsonNat (c :: cs)).map (fun p => (.num (p.1 : Int), p.2))
      else if c = '[' then
        match skipJsonWs cs with
        | ']' :: rest => some (.arr .nil, rest)
        | _ => (parseJsonArrItems fuel cs).map (fun p => (.arr p.1, p.2))
      else if c = '\x7b' then
        match skipJsonWs cs with
        | '\x7d' :: rest => some (.obj .nil, rest)
        | _ => (parseJsonObjItems fuel cs).map (fun p => (.obj p.1, p.2))
      else none

def parseJsonArrItems (fuel : Nat) (s : Str) : Option (JsonList × Str) :=
  match fuel with
  | 0 => none
  | fuel + 1 =>
    match parseJsonVal fuel s with
    | none => none
    | some (v, rest) =>
      match skipJsonWs rest with
      | ',' :: rest2 =>
        (parseJsonArrItems fuel rest2).map (fun p => (.cons v p.1, p.2))
      | ']' :: rest2 => some (.cons v .nil, rest2)
      | _ => none

def parseJsonObjItems (fuel : Nat) (s : Str) : Option (JsonFields × Str) :=
  match fuel with
  | 0 => none
  | fuel + 1 =>
    match skipJsonWs s with
    | '"' :: cs =>
      match parseJsonStringBody (cs.length + 1) cs with
      | none => none
      | some (key, rest) =>
        match skipJsonWs rest with
        | ':' :: rest2 =>
          match parseJsonVal fuel rest2 with
          | none => none
          | some (v, rest3) =>
            match skipJsonWs rest3 with
            | ',' :: rest4 =>
              (parseJsonObjItems fuel rest4).map (fun p => (.cons key v p.1, p.2))
            | '\x7d' :: rest4 => some (.cons key v .nil, rest4)
            | _ => none
        | _ => none
    | _ => none
end

/-- Model of `JSON.parse` (see the fragment caveats above): `none` models
a thrown `SyntaxError`. -/
def jsonParse (s : Str) : Option Json :=
  match parseJsonVal (s.length + 1) s with
  | some (j, rest) => if (skipJsonWs rest).isEmpty then some j else none
  | none => none

/-! ### POSIX paths

Absolute directories and resolved paths are represented as lists of path
components.  `resolveAbs` models `node:path.resolve` (POSIX): relative
paths are joined onto the base, then `.`/`..`/empty segments are
normalized, with `..` clamped at the root.  `relativeComps` models
`node:path.relative` on normalized absolute inputs. -/

def splitOnChar (ch : Char) : Str → List Str
  | [] => [[]]
  | c :: cs =>
    let rest := splitOnChar ch cs
    if c = ch then [] :: rest
    else
      match rest with
      | [] => [[c]]
      | r :: rs => (c :: r) :: rs

/-- Normalize path segments: drop empty and `.` segments, let `..` pop
the previous segment (clamping at the root). -/
def normSegs (segs : List Str) : List Str :=
  segs.foldl
    (fun acc seg =>
      if seg = [] ∨ seg = ['.'] then acc
      else if seg = ['.', '.'] then acc.dropLast
      else acc ++ [seg])
    []

/-- `path.isAbsolute` (POSIX). -/
def isAbsolutePath (p : Str) : Bool :=
  strStartsWith ['/'] p

/-- `path.resolve(base, p)` with `base` an already-normalized absolute
directory, returning normalized components. -/
def resolveAbs (base : List Str) (p : Str) : List Str :=
  if isAbsolutePath p then normSegs (splitOnChar '/' p)
  else normSegs (base ++ splitOnChar '/' p)

/-- Length of the longest common prefix of two component lists. -/
def commonPrefixLen : List Str → List Str → Nat
  | a :: as, b :: bs => if a = b then commonPrefixLen as bs + 1 else 0
  | _, _ => 0

/-- `path.relative(base, target)` on normalized absolute inputs, as
components. -/
def relativeComps (base target : List Str) : List Str :=
  let k := commonPrefixLen base target
  List.replicate (base.length - k) ['.', '.'] ++ target.drop k

/-- Join components with `/` (no leading separator). -/
def joinSlash : List Str → Str
  | [] => []
  | [x] => x
  | x :: y :: xs => x ++ '/' :: joinSlash (y :: xs)

/-- Render an absolute path from components. -/
def renderAbs (comps : List Str) : Str :=
  '/' :: joinSlash comps

/-! ### gitignore matching

`matchPathPattern` in the source delegates the final pattern test to the
external `ignore` npm package.  The decision functions below therefore
take the ignore test as a function parameter `ign`; `gitignoreIgnores`
models the package's gitignore semantics for the pattern subset exercised
in this development (optional leading `/`, `*` within a segment, no
negation), including the rule that a pattern matching a directory also
matches everything below it. -/

def segsMatchPrefix (pats segs : List Str) : Bool :=
  match pats with
  | [] => true
  | p :: ps =>
    match segs with
    | [] => false
    | s :: ss => wildMatch p s && segsMatchPrefix ps ss

def segsMatchAnywhere (pats : List Str) : List Str → Bool
  | [] => false
  | s :: ss => segsMatchPrefix pats (s :: ss) || segsMatchAnywhere pats ss

/-- Modelled from the external `ignore` package (gitignore semantics), for
the pattern subset used by this repository's rules. -/
def gitignoreIgnores (pattern path : Str) : Bool :=
  let anchoredBySlash := strStartsWith ['/'] pattern
  let core := if anchoredBySlash then pattern.drop 1 else pattern
  let patSegs := splitOnChar '/' core
  let pathSegs := splitOnChar '/' path
  if anchoredBySlash ∨ patSegs.length > 1 then segsMatchPrefix patSegs pathSegs
  else segsMatchAnywhere patSegs pathSegs

/-! ### Pattern compiler (permissions/matching.ts) -/

inductive Decision where
  | allow
  | ask
  | deny
deriving DecidableEq

inductive PermissionSource where
  | workspace
  | global
deriving DecidableEq

/-- Result of `parseToolPattern`. -/
structure ParsedPattern where
  tool : Str
  specifier : Option Str
deriving DecidableEq

/-- Model of `parseToolPattern`. -/
def parseToolPattern (value : Str) : Option ParsedPattern :=
  let trimmed := jsTrim value
  if trimmed.isEmpty then none
  else
    match splitAtFirst '(' trimmed with
    | none => some ⟨trimmed, none⟩
    | some (before, after) =>
      if trimmed.getLast? = some ')' then
        let tool := jsTrim before
        if tool.isEmpty then none
        else some ⟨tool, some after.dropLast⟩
      else some ⟨trimmed, none⟩

/-- Model of `normalizeToolName`. -/
def normalizeToolName (name : Str) : Str :=
  jsToLower (jsTrim name)

/-- Model of `normalizeSpecifier`. -/
def normalizeSpecifier : Option Str → Option Str
  | none => none
  | some s =>
    let trimmed := jsTrim s
    if trimmed.isEmpty ∨ trimmed = ['*'] then none else some trimmed

def bashTool : Str := ['b', 'a', 's', 'h']
def readTool : Str := ['r', 'e', 'a', 'd']
def editTool : Str := ['e', 'd', 'i', 't']
def writeTool : Str := ['w', 'r', 'i', 't', 'e']

/-- Model of the `PATH_TOOLS` set membership test. -/
def isPathTool (tool : Str) : Bool :=
  tool = readTool || tool = editTool || tool = writeTool

/-- Model of `isKnownTool`. -/
def isKnownTool (tool : Str) : Bool :=
  tool = bashTool || isPathTool tool

/-- Model of `parseArgsMatch`. -/
def parseArgsMatch (tool : Str) (specifier : Option Str) : Option Json :=
  match specifier with
  | none => none
  | some s =>
    if isKnownTool tool then none
    else
      let trimmed := jsTrim s
      let candidate :=
        if strStartsWith ['a', 'r', 'g', 's', ':'] trimmed then jsTrim (trimmed.drop 5)
        else trimmed
      if candidate.isEmpty then none
      else if candidate.head? = some '\x7b' ∨ candidate.head? = some '[' then
        jsonParse candidate
      else none

/-- Compiled deterministic permission rule (`PermissionRule` in
`types.ts`; `settingsDir` is kept as normalized absolute components). -/
structure PermissionRule where
  kind : Decision
  raw : Str
  tool : Str
  specifier : Option Str
  source : PermissionSource
  settingsPath : Str
  settingsDir : List Str
  argsMatch : Option Json
  reason : Option Str
deriving DecidableEq

/-- `path.dirname` of an absolute file path, as components. -/
def dirnameComps (settingsPath : Str) : List Str :=
  (normSegs (splitOnChar '/' settingsPath)).dropLast

/-- Model of `compilePermissionRule` (the variant that accepts an
optional deny reason). -/
def compilePermissionRule (raw : Str) (kind : Decision) (source : PermissionSource)
    (settingsPath : Str) (reason : Option Str) : Option PermissionRule :=
  match parseToolPattern raw with
  | none => none
  | some parsed =>
    let tool := normalizeToolName parsed.tool
    let specifier := normalizeSpecifier parsed.specifier
    let argsMatch := parseArgsMatch tool specifier
    if specifier.isSome ∧ ¬isKnownTool tool ∧ argsMatch.isNone then none
    else
      let trimmedReason := reason.map jsTrim
      some
        { kind := kind
          raw := raw
          tool := tool
          specifier := specifier
          source := source
          settingsPath := settingsPath
          settingsDir := dirnameComps settingsPath
          argsMatch := argsMatch
          reason :=
            match trimmedReason with
            | some r => if r.isEmpty then none else some r
            | none => none }

/-- Natural-language policy rule (`PolicyRule` in `types.ts`; only the
fields used by decision resolution are modelled). -/
structure PolicyRule where
  raw : Str
  tool : Str
  specifier : Option Str
  policy : Str
  source : PermissionSource
  settingsPath : Str
  settingsDir : List Str
  argsMatch : Option Json
deriving DecidableEq

/-- Policy override rule (`PolicyOverrideRule` in `types.ts`). -/
structure PolicyOverrideRule where
  raw : Str
  tool : Str
  specifier : Option Str
  source : PermissionSource
  settingsPath : Str
  settingsDir : List Str
  argsMatch : Option Json
deriving DecidableEq

/-! ### Tool calls and rule matching -/

/-- `ToolCallSummary` from `types.ts`: `args` is the JSON argument
object. -/
structure ToolCallSummary where
  id : Str
  name : Str
  args : JsonFields
deriving DecidableEq

/-- Model of `getStringArg`. -/
def getStringArg (args : JsonFields) (key : Str) : Option Str :=
  match fieldsGet args key with
  | some (.str s) => some s
  | _ => none

/-- Model of `getBashCommand`. -/
def getBashCommand (args : JsonFields) : Option Str :=
  (getStringArg args ['c', 'o', 'm', 'm', 'a', 'n', 'd']).orElse
    (fun _ => getStringArg args ['c', 'm', 'd'])

/-- Model of `getToolPath`. -/
def getToolPath (args : JsonFields) : Option Str :=
  getStringArg args ['p', 'a', 't', 'h']

/-- Model of `normalizePathPattern`.  `settingsDir`, `cwd` and `home` are
normalized absolute directories as components; the root directory is
`[]`. -/
def normalizePathPattern (pattern : Str) (settingsDir cwd home : List Str) :
    Option (Str × List Str) :=
  let trimmed := jsTrim pattern
  if trimmed.isEmpty then none
  else if strStartsWith ['/', '/'] trimmed then
    some ('/' :: trimmed.drop 2, [])
  else if strStartsWith ['~', '/'] trimmed then
    some (renderAbs (resolveAbs home (trimmed.drop 2)), [])
  else if strStartsWith ['/'] trimmed then
    some (trimmed, settingsDir)
  else if strStartsWith ['.', '/'] trimmed then
    some (trimmed.drop 2, cwd)
  else some (trimmed, cwd)

/-- Model of `matchPathPattern`.  `ign` is the external `ignore` package's
single-pattern test (`ignore().add(pattern).ignores(path)`). -/
def matchPathPattern (ign : Str → Str → Bool) (pattern targetPath : Str)
    (settingsDir cwd home : List Str) : Bool :=
  match normalizePathPattern pattern settingsDir cwd home with
  | none => false
  | some (normalizedPattern, baseDir) =>
    let absoluteTarget := resolveAbs cwd targetPath
    let relativePath := joinSlash (relativeComps baseDir absoluteTarget)
    if strStartsWith ['.', '.'] relativePath ∧ baseDir ≠ [] then false
    else ign normalizedPattern relativePath

/-- Model of `matchArgs`. -/
def matchArgs (specifier : Option Str) (argsMatch : Option Json) (args : JsonFields) : Bool :=
  match specifier with
  | none => true
  | some _ =>
    match argsMatch with
    | none => false
    | some j => deepEqual j (.obj args)

/-- The rule fields consulted by `matchesToolRule`. -/
structure MatchableRule where
  tool : Str
  specifier : Option Str
  argsMatch : Option Json
  settingsDir : List Str

def PermissionRule.toMatchable (r : PermissionRule) : MatchableRule :=
  ⟨r.tool, r.specifier, r.argsMatch, r.settingsDir⟩

def PolicyRule.toMatchable (r : PolicyRule) : MatchableRule :=
  ⟨r.tool, r.specifier, r.argsMatch, r.settingsDir⟩

def PolicyOverrideRule.toMatchable (r : PolicyOverrideRule) : MatchableRule :=
  ⟨r.tool, r.specifier, r.argsMatch, r.settingsDir⟩

/-- Model of `matchesToolRule`. -/
def matchesToolRule (ign : Str → Str → Bool) (rule : MatchableRule)
    (toolCall : ToolCallSummary) (cwd home : List Str) : Bool :=
  let toolName := normalizeToolName toolCall.name
  if toolName ≠ rule.tool then false
  else
    match rule.specifier with
    | none => true
    | some spec =>
      if rule.tool = bashTool then
        match getBashCommand toolCall.args with
        | some command => if command.isEmpty then false else matchBashPattern spec command
        | none => false
      else if isPathTool rule.tool then
        match getToolPath toolCall.args with
        | some pathValue =>
          if pathValue.isEmpty then false
          else matchPathPattern ign spec pathValue rule.settingsDir cwd home
        | none => false
      else matchArgs rule.specifier rule.argsMatch toolCall.args

/-- Model of `matchesPermissionRule`. -/
def matchesPermissionRule (ign : Str → Str → Bool) (rule : PermissionRule)
    (toolCall : ToolCallSummary) (cwd home : List Str) : Bool :=
  matchesToolRule ign rule.toMatchable toolCall cwd home

/-- Model of `matchesPolicyRule`. -/
def matchesPolicyRule (ign : Str → Str → Bool) (rule : PolicyRule)
    (toolCall : ToolCallSummary) (cwd home : List Str) : Bool :=
  matchesToolRule ign rule.toMatchable toolCall cwd home

/-- Model of `matchesPolicyOverride`. -/
def matchesPolicyOverride (ign : Str → Str → Bool) (rule : PolicyOverrideRule)
    (toolCall : ToolCallSummary) (cwd home : List Str) : Bool :=
  matchesToolRule ign rule.toMatchable toolCall cwd home

/-! ### Decision resolution (permissions/decisions.ts) -/

/-- `ToolPreflightMetadata`: classifier output for one call. -/
structure ToolPreflightMetadata where
  summary : Str
  destructive : Bool
deriving DecidableEq

/-- `ApprovalMode` from `types.ts`. -/
inductive ApprovalMode where
  | all
  | destructive
  | off
deriving DecidableEq

/-- `PermissionRules` from `types.ts`. -/
structure PermissionRules where
  allow : List PermissionRule
  ask : List PermissionRule
  deny : List PermissionRule

/-- `PermissionsState` from `types.ts`. -/
structure PermissionsState where
  rules : PermissionRules
  policyRules : List PolicyRule
  policyOverrides : List PolicyOverrideRule

/-- `PolicyEvaluation` from `types.ts`. -/
structure PolicyEvaluation where
  decision : Decision
  reason : Str
  rule : PolicyRule
deriving DecidableEq

/-- `ToolDecision` from `types.ts`. -/
structure ToolDecision where
  decision : Decision
  reason : Option Str
  rule : Option PermissionRule
  policy : Option PolicyEvaluation
deriving DecidableEq

/-- `PolicyAttempt` from `types.ts`: the outcome of the asynchronous
`evaluatePolicyRule` LLM call, supplied to the resolver model as an
oracle. -/
inductive PolicyAttempt where
  | ok (decision : Decision) (reason : Str)
  | error (reason : Str)
deriving DecidableEq

/-- The ambient inputs of a resolution pass: `ctx.cwd`, `ctx.hasUI`, the
home directory, the external ignore matcher and
`config.approvalMode`. -/
structure ResolveEnv where
  hasUI : Bool
  cwd : List Str
  home : List Str
  ign : Str → Str → Bool
  approvalMode : ApprovalMode

/-- Model of `findMatchingRule` (entries are non-null in the model, so
the `if (!rule) continue` guard is vacuous). -/
def findMatchingRule (env : ResolveEnv) (toolCall : ToolCallSummary)
    (rules : List PermissionRule) : Option PermissionRule :=
  rules.find? (fun rule => matchesPermissionRule env.ign rule toolCall env.cwd env.home)

/-- Model of `findMatchingPolicyRule`. -/
def findMatchingPolicyRule (env : ResolveEnv) (toolCall : ToolCallSummary)
    (rules : List PolicyRule) : Option PolicyRule :=
  rules.find? (fun rule => matchesPolicyRule env.ign rule toolCall env.cwd env.home)

/-- Model of `findMatchingPolicyOverride`. -/
def findMatchingPolicyOverride (env : ResolveEnv) (toolCall : ToolCallSummary)
    (rules : List PolicyOverrideRule) : Option PolicyOverrideRule :=
  rules.find? (fun rule => matchesPolicyOverride env.ign rule toolCall env.cwd env.home)

/-- Model of `buildDefaultDecision`.  `ApprovalMode` is a closed
three-value type, so the defensive trailing `return "ask"` of the source
is unreachable. -/
def buildDefaultDecision (metadata : Option ToolPreflightMetadata) (mode : ApprovalMode) :
    Decision :=
  match mode with
  | .off => .allow
  | .all => .ask
  | .destructive =>
    let destructive := (metadata.map (·.destructive)).getD true
    if destructive then .ask else .allow

/-- Model of `buildPermissionDenyReason`. -/
def buildPermissionDenyReason (rule : PermissionRule) : Str :=
  match rule.reason with
  | some r =>
    if r.isEmpty then "Blocked by rule ".toList ++ rule.raw ++ ['.']
    else "Blocked by rule ".toList ++ rule.raw ++ ':' :: ' ' :: r
  | none => "Blocked by rule ".toList ++ rule.raw ++ ['.']

/-- Model of `buildPolicyDenyReason`. -/
def buildPolicyDenyReason (rule : PolicyRule) (reason : Str) : Str :=
  "Blocked by policy rule ".toList ++ rule.raw ++ ':' :: ' ' :: reason

/-- Result of `resolveBaseDecision`. -/
structure BaseDecision where
  decision : Decision
  rule : Option PermissionRule
  reason : Option Str
deriving DecidableEq

/-- Model of `resolveBaseDecision`: deny rules, then ask rules, then
allow rules, then the approval-mode default. -/
def resolveBaseDecision (env : ResolveEnv) (toolCall : ToolCallSummary)
    (metadata : Option ToolPreflightMetadata) (permissions : PermissionsState) :
    BaseDecision :=
  match findMatchingRule env toolCall permissions.rules.deny with
  | some denyRule => ⟨.deny, some denyRule, some (buildPermissionDenyReason denyRule)⟩
  | none =>
    match findMatchingRule env toolCall permissions.rules.ask with
    | some askRule => ⟨.ask, some askRule, none⟩
    | none =>
      match findMatchingRule env toolCall permissions.rules.allow with
      | some allowRule => ⟨.allow, some allowRule, none⟩
      | none => ⟨buildDefaultDecision metadata env.approvalMode, none, none⟩

/-- Model of `applyPolicyDecision`. -/
def applyPolicyDecision (baseDecision policyDecision : Decision) : Decision :=
  match baseDecision with
  | .deny => .deny
  | .ask => if policyDecision = .deny then .deny else .ask
  | .allow => policyDecision

/-- JavaScript falsiness of the running `reason` value (`!reason`). -/
def reasonFalsy : Option Str → Bool
  | none => true
  | some s => s.isEmpty

/-- Model of the per-tool-call body of `resolveToolDecisions`.  The
asynchronous `evaluatePolicyRule` oracle is supplied as `policyEval`. -/
def resolveToolDecision (env : ResolveEnv) (toolCall : ToolCallSummary)
    (metadata : Option ToolPreflightMetadata) (permissions : PermissionsState)
    (policyEval : PolicyRule → PolicyAttempt) : ToolDecision :=
  let base := resolveBaseDecision env toolCall metadata permissions
  if base.decision = .deny then
    ⟨base.decision, base.reason, base.rule, none⟩
  else
    match findMatchingPolicyOverride env toolCall permissions.policyOverrides with
    | some _ => ⟨base.decision, base.reason, base.rule, none⟩
    | none =>
      match findMatchingPolicyRule env toolCall permissions.policyRules with
      | none => ⟨base.decision, base.reason, base.rule, none⟩
      | some policyRule =>
        match policyEval policyRule with
        | .ok policyDecision policyReason =>
          let policyEvaluation := some ⟨policyDecision, policyReason, policyRule⟩
          let policyDenied := policyDecision = .deny
          let next0 := applyPolicyDecision base.decision policyDecision
          let next := if policyDenied ∧ env.hasUI then .ask else next0
          let reason :=
            if next = .deny ∧ reasonFalsy base.reason then
              some (buildPolicyDenyReason policyRule policyReason)
            else base.reason
          ⟨next, reason, base.rule, policyEvaluation⟩
        | .error _ =>
          let next := if base.decision = .allow then .ask else base.decision
          ⟨next, base.reason, base.rule, none⟩

/-- Model of `resolveToolDecisions` over a batch of calls (the per-call
metadata lookup `preflight[toolCall.id]` is a function of the id). -/
def resolveToolDecisions (env : ResolveEnv) (toolCalls : List ToolCallSummary)
    (preflight : Str → Option ToolPreflightMetadata) (permissions : PermissionsState)
    (policyEval : PolicyRule → PolicyAttempt) : List (Str × ToolDecision) :=
  toolCalls.map
    (fun toolCall =>
      (toolCall.id, resolveToolDecision env toolCall (preflight toolCall.id) permissions policyEval))

/-! ### Rule persistence (permissions/persistence.ts) -/

/-- Model of `formatRuleToolName`. -/
def formatRuleToolName (name : Str) : Str :=
  let normalized := normalizeToolName name
  if normalized = bashTool then ['B', 'a', 's', 'h']
  else if normalized = readTool then ['R', 'e', 'a', 'd']
  else if normalized = editTool then ['E', 'd', 'i', 't']
  else if normalized = writeTool then ['W', 'r', 'i', 't', 'e']
  else name

/-- Model of `formatPathRule` (POSIX: `toPosixPath` is the identity and
`resolve` of an absolute path is its normalization). -/
def formatPathRule (pathValue : Str) : Str :=
  let trimmed := jsTrim pathValue
  if trimmed.isEmpty then trimmed
  else if strStartsWith ['~', '/'] trimmed then trimmed
  else if isAbsolutePath trimmed then
    '/' :: '/' :: joinSlash (resolveAbs [] trimmed)
  else trimmed

/-- Model of `buildRuleForToolCall` (the `cwd` parameter is unused by the
source body and omitted). -/
def buildRuleForToolCall (toolCall : ToolCallSummary) : Option Str :=
  let toolName := formatRuleToolName toolCall.name
  let toolKey := normalizeToolName toolCall.name
  if toolKey = bashTool then
    match getBashCommand toolCall.args with
    | some command =>
      if command.isEmpty then none else some (toolName ++ '(' :: command ++ [')'])
    | none => none
  else if isPathTool toolKey then
    match getToolPath toolCall.args with
    | some pathValue =>
      if pathValue.isEmpty then none
      else some (toolName ++ '(' :: formatPathRule pathValue ++ [')'])
    | none => none
  else
    let argsString := stableStringify (.obj toolCall.args)
    if argsString.isEmpty then none
    else some (toolName ++ '(' :: 'a' :: 'r' :: 'g' :: 's' :: ':' :: argsString ++ [')'])

/-! ### Policy-rule loading (permissions/matching.ts, final version) -/

/-- View a JSON value the way `typeof item === "object"` does: objects
and arrays pass (an array exposes no string-valued properties), anything
else fails. -/
def jsObjectView : Json → Option JsonFields
  | .obj f => some f
  | .arr _ => some .nil
  | _ => none

/-- `typeof v === "string" ? v.trim() : ""`, tested for emptiness. -/
def strFieldTrimmed (fields : JsonFields) (key : Str) : Str :=
  match fieldsGet fields key with
  | some (.str s) => jsTrim s
  | _ => []

def starTool : Str := ['*']
def policyKey : Str := ['p', 'o', 'l', 'i', 'c', 'y']
def patternKey : Str := ['p', 'a', 't', 't', 'e', 'r', 'n']
def toolKey : Str := ['t', 'o', 'o', 'l']

def jsonListToList : JsonList → List Json
  | .nil => []
  | .cons a rest => a :: jsonListToList rest

def jsonFieldsToList : JsonFields → List (Str × Json)
  | .nil => []
  | .cons k v rest => (k, v) :: jsonFieldsToList rest

/-- Model of `extractLegacyPolicyEntries` applied to one array item. -/
def extractLegacyPolicyEntry (item : Json) : Option (Str × Str) :=
  match item with
  | .str s =>
    let policy := jsTrim s
    if policy.isEmpty then none else some (starTool, policy)
  | _ =>
    match jsObjectView item with
    | none => none
    | some fields =>
      let policy := strFieldTrimmed fields policyKey
      if policy.isEmpty then none
      else
        let toolVal := strFieldTrimmed fields toolKey
        if ¬toolVal.isEmpty then
          match fieldsGet fields toolKey with
          | some (.str rawTool) => some (normalizeToolName rawTool, policy)
          | _ => none
        else
          let patternVal := strFieldTrimmed fields patternKey
          if ¬patternVal.isEmpty then
            match fieldsGet fields patternKey with
            | some (.str rawPattern) =>
              match parseToolPattern rawPattern with
              | none => none
              | some parsed => some (normalizeToolName parsed.tool, policy)
            | _ => none
          else some (starTool, policy)

/-- Model of `extractLegacyPolicyEntries`. -/
def extractLegacyPolicyEntries (items : List Json) : List (Str × Str) :=
  items.filterMap extractLegacyPolicyEntry

/-- Model of `extractPolicyValues`. -/
def extractPolicyValues (value : Json) : List Str :=
  match value with
  | .str s =>
    let trimmed := jsTrim s
    if trimmed.isEmpty then [] else [trimmed]
  | .arr items =>
    (jsonListToList items).filterMap
      (fun item =>
        match item with
        | .str s =>
          let trimmed := jsTrim s
          if trimmed.isEmpty then none else some trimmed
        | _ =>
          match jsObjectView item with
          | some fields =>
            let policy := strFieldTrimmed fields policyKey
            if policy.isEmpty then none else some policy
          | none => none)
  | _ => []

/-- Model of `extractToolScopedPolicyEntries`. -/
def extractToolScopedPolicyEntries (fields : JsonFields) : List (Str × Str) :=
  (jsonFieldsToList fields).flatMap
    (fun kv =>
      let normalizedTool := normalizeToolName kv.1
      if normalizedTool.isEmpty then []
      else (extractPolicyValues kv.2).map (fun policy => (normalizedTool, policy)))

/-- Model of `extractPolicyEntries`: the `llmRules` value as read from the
settings JSON (`none` models an absent property). -/
def extractPolicyEntries (value : Option Json) : List (Str × Str) :=
  match value with
  | none => []
  | some v =>
    if ¬jsTruthy v then []
    else
      match v with
      | .arr items => extractLegacyPolicyEntries (jsonListToList items)
      | .obj fields => extractToolScopedPolicyEntries fields
      | _ => []

/-! ### Consistency checking (rule-consistency.ts) -/

/-- `RuleConsistencyResult` from `types.ts`. -/
structure RuleConsistencyResult where
  conflict : Bool
  reason : Str
  conflictsWith : List Str
deriving DecidableEq

def dedupKeepFirst (l : List Str) : List Str :=
  (l.foldl (fun acc s => if s ∈ acc then acc else acc ++ [s]) [])

/-- Model of `parseRuleConsistencyResponse`.  The code-fence stripping,
JSON-payload extraction and `JSON.parse` stages of the source are
abstracted into the `Option Json` payload (`none` covers an empty
response and every earlier parsing failure). -/
def parseRuleConsistencyResponse (payload : Option Json) : Option RuleConsistencyResult :=
  match payload with
  | none => none
  | some j =>
    match j with
    | .obj fields =>
      match fieldsGet fields ['c', 'o', 'n', 'f', 'l', 'i', 'c', 't'] with
      | some (.bool conflict) =>
        let reason :=
          match fieldsGet fields ['r', 'e', 'a', 's', 'o', 'n'] with
          | some (.str s) =>
            let trimmed := jsTrim s
            if trimmed.isEmpty then
              if conflict then "Potential conflict detected.".toList
              else "No conflict detected.".toList
            else trimmed
          | _ =>
            if conflict then "Potential conflict detected.".toList
            else "No conflict detected.".toList
        let conflictsWith :=
          match fieldsGet fields "conflictsWith".toList with
          | some (.arr items) =>
            dedupKeepFirst
              ((jsonListToList items).filterMap
                (fun item =>
                  match item with
                  | .str s =>
                    let trimmed := jsTrim s
                    if trimmed.isEmpty then none else some trimmed
                  | _ => none))
          | _ => []
        some ⟨conflict, reason, conflictsWith⟩
      | _ => none
    | _ => none

/-- Model of `buildUnavailableResult`. -/
def buildUnavailableResult (reason : Str) : RuleConsistencyResult :=
  ⟨false, "Consistency check unavailable: ".toList ++ reason, []⟩

/-- The observable outcome of the consistency oracle call in
`evaluateRuleConsistency`: no model/API key, a thrown request error, a
cancelled request, or a response payload. -/
inductive ConsistencyOracleOutcome where
  | noModel
  | requestFailure (message : Str)
  | cancelled
  | response (payload : Option Json)

/-- Model of `evaluateRuleConsistency` as a function of the oracle
outcome. -/
def evaluateRuleConsistency (outcome : ConsistencyOracleOutcome) : RuleConsistencyResult :=
  match outcome with
  | .noModel =>
    buildUnavailableResult "No model or API key available for consistency check.".toList
  | .response payload =>
    match parseRuleConsistencyResponse payload with
    | none => buildUnavailableResult "Rule consistency response was not valid JSON.".toList
    | some parsed => parsed
  | .cancelled => buildUnavailableResult "Rule consistency request cancelled.".toList
  | .requestFailure message =>
    buildUnavailableResult
      (if message.isEmpty then "Rule consistency request failed.".toList
       else "Rule consistency request failed: ".toList ++ message)

/-! ### Approval loop (approvals/index.ts) -/

/-- The user's choice in the rule-conflict dialog. -/
inductive RuleConflictAction where
  | editRule
  | saveAnyway
  | cancel

/-- What the custom-rule branch of `collectApprovals` does right after the
consistency check: return to the approval dialog without persisting,
deny with "Blocked by user", or persist the rule and re-evaluate the
pending call. -/
inductive CustomRuleStep where
  | backToDialog
  | blockedByUser
  | persistThenReevaluate
deriving DecidableEq

/-- Model of the conflict gate in `collectApprovals` (lines 124-141): the
conflict dialog only opens when `consistency.conflict` is set, and only
`edit-rule`/`cancel` divert the flow away from `persistPolicyRule`. -/
def customRuleConsistencyStep (consistency : RuleConsistencyResult)
    (conflictAction : RuleConflictAction) : CustomRuleStep :=
  if consistency.conflict then
    match conflictAction with
    | .editRule => .backToDialog
    | .cancel => .blockedByUser
    | .saveAnyway => .persistThenReevaluate
  else .persistThenReevaluate

/-- Outcome of the scoped preflight re-classification
(`buildPreflightMetadata` on the single-call event): on success it yields
the classifier metadata for the pending call and the policy-evaluation
oracle used by the resolver. -/
inductive PreflightOutcome where
  | ok (metadata : Option ToolPreflightMetadata) (policyEval : PolicyRule → PolicyAttempt)
  | error (reason : Str)

/-- Result of `applyCustomRuleToCurrentCall`. -/
inductive ApplyResult where
  | ok (metadata : Option ToolPreflightMetadata) (decision : ToolDecision)
  | error (reason : Str)
deriving DecidableEq

/-- Model of `applyCustomRuleToCurrentCall`: the store is loaded fresh
(`freshPermissions`), classification and resolution are re-run on the
event scoped to exactly `[toolCall]`, and a preflight failure is turned
into an error naming the failure. -/
def applyCustomRuleToCurrentCall (env : ResolveEnv) (freshPermissions : PermissionsState)
    (preflightResult : PreflightOutcome) (toolCall : ToolCallSummary) : ApplyResult :=
  match preflightResult with
  | .error reason => .error ("Failed to validate custom rule: ".toList ++ reason)
  | .ok metadata policyEval =>
    let scopedToolCalls := [toolCall]
    let nextDecisions :=
      resolveToolDecisions env scopedToolCalls (fun _ => metadata) freshPermissions policyEval
    match (nextDecisions.find? (fun p => p.1 = toolCall.id)).map (fun p => p.2) with
    | none => .error "Failed to evaluate custom rule for current tool call.".toList
    | some nextDecision => .ok metadata nextDecision

/-- Terminal or looping outcome of one iteration of the approval loop
after a custom rule was persisted. -/
inductive LoopOutcome where
  | terminal (allow : Bool) (reason : Option Str)
  | reopenDialog (decision : ToolDecision) (metadata : Option ToolPreflightMetadata)
deriving DecidableEq

/-- Model of the tail of the custom-rule branch of `collectApprovals`
(lines 150-174): error denies with the error's reason, `allow`/`deny`
terminate, `ask` re-opens the approval dialog with the updated
decision. -/
def customRuleLoopTail : ApplyResult → LoopOutcome
  | .error reason => .terminal false (some reason)
  | .ok metadata decision =>
    match decision.decision with
    | .allow => .terminal true none
    | .deny => .terminal false (some (decision.reason.getD "Blocked by custom rule".toList))
    | .ask => .reopenDialog decision metadata

/-- Round trip of `buildRuleForToolCall`, `compilePermissionRule` and
`matchesPermissionRule` for one tool call (C3's build↔match pair). -/
def roundTripMatches (toolCall : ToolCallSummary) (cwd home : List Str)
    (settingsPath : Str) : Bool :=
  match buildRuleForToolCall toolCall with
  | none => false
  | some raw =>
    match compilePermissionRule raw .allow .workspace settingsPath none with
    | none => false
    | some rule => matchesPermissionRule gitignoreIgnores rule toolCall cwd home

/-! ### Concrete fixtures (mirroring the repository's test data) -/

def wsSettingsPath : Str := "/workspace/.pi/preflight/settings.local.json".toList

def wsCwd : List Str := ["workspace".toList]

def homeDir : List Str := ["root".toList]

def bashCallWith (command : Str) : ToolCallSummary :=
  ⟨"call-1".toList, "bash".toList, .cons "command".toList (.str command) .nil⟩

def readCallWith (p : Str) : ToolCallSummary :=
  ⟨"call-2".toList, "read".toList, .cons "path".toList (.str p) .nil⟩

def writeCallWith (p : Str) : ToolCallSummary :=
  ⟨"call-3".toList, "write".toList, .cons "path".toList (.str p) .nil⟩

def envNoUI : ResolveEnv := ⟨false, wsCwd, homeDir, gitignoreIgnores, .all⟩

def envUI : ResolveEnv := ⟨true, wsCwd, homeDir, gitignoreIgnores, .all⟩

def envDestructive : ResolveEnv := ⟨false, wsCwd, homeDir, gitignoreIgnores, .destructive⟩

def readNotesRule : PermissionRule :=
  ⟨.allow, "Read(//tmp/notes.txt)".toList, readTool, some "//tmp/notes.txt".toList, .workspace,
    wsSettingsPath, dirnameComps wsSettingsPath, none, none⟩

def readSrcRule : PermissionRule :=
  ⟨.allow, "Read(./src/*.ts)".toList, readTool, some "./src/*.ts".toList, .workspace,
    wsSettingsPath, dirnameComps wsSettingsPath, none, none⟩

def bashLsStarRule : PermissionRule :=
  ⟨.allow, "Bash(ls:*)".toList, bashTool, some "ls:*".toList, .workspace, wsSettingsPath,
    dirnameComps wsSettingsPath, none, none⟩

def bashCmdCallWith (command : Str) : ToolCallSummary :=
  ⟨"call-4".toList, "bash".toList, .cons "cmd".toList (.str command) .nil⟩

def myToolCall : ToolCallSummary :=
  ⟨"call-5".toList, "MyTool".toList,
    .cons "foo".toList (.num 1)
      (.cons "bar".toList
        (.arr (.cons (.str "a".toList) (.cons (.str "b".toList) .nil))) .nil)⟩

def bashStarAllowRule : PermissionRule :=
  ⟨.allow, "Bash(*)".toList, bashTool, none, .workspace, wsSettingsPath,
    dirnameComps wsSettingsPath, none, none⟩

def bashStarDenyRule : PermissionRule :=
  ⟨.deny, "Bash(*)".toList, bashTool, none, .workspace, wsSettingsPath,
    dirnameComps wsSettingsPath, none, none⟩

def bashPolicyRule : PolicyRule :=
  ⟨"Bash(*)".toList, bashTool, none, "Only allow read-only bash".toList, .workspace,
    wsSettingsPath, dirnameComps wsSettingsPath, none⟩

def emptyRules : PermissionRules := ⟨[], [], []⟩

def noRulesState : PermissionsState := ⟨emptyRules, [], []⟩

def allowPlusPolicyState : PermissionsState :=
  ⟨⟨[bashStarAllowRule], [], []⟩, [bashPolicyRule], []⟩

def policyOnlyState : PermissionsState := ⟨emptyRules, [bashPolicyRule], []⟩

def policyDenyEval : PolicyRule → PolicyAttempt :=
  fun _ => .ok .deny "Only read-only bash commands are allowed".toList

def policyNoneEval : PolicyRule → PolicyAttempt :=
  fun _ => .error "no policy evaluation in this scenario".toList

/-! ### Supporting lemmas -/

def listToJsonList : List Json → JsonList
  | [] => .nil
  | a :: rest => .cons a (listToJsonList rest)

theorem jsonListToList_listToJsonList (l : List Json) :
    jsonListToList (listToJsonList l) = l := by
  induction l with
  | nil => rfl
  | cons a rest ih => simp [listToJsonList, jsonListToList, ih]

theorem strStartsWith_append (pre rest : Str) : strStartsWith pre (pre ++ rest) = true := by
  induction pre with
  | nil => simp [strStartsWith]
  | cons a l ih => simp [strStartsWith, ih]

theorem commonPrefixLen_le_left (a b : List Str) : commonPrefixLen a b ≤ a.length := by
  induction a generalizing b with
  | nil => simp [commonPrefixLen]
  | cons x xs ih =>
    cases b with
    | nil => simp [commonPrefixLen]
    | cons y ys =>
      by_cases h : x = y
      · simp [commonPrefixLen, h]
        exact ih ys
      · simp [commonPrefixLen, h]

theorem prefix_of_commonPrefixLen_eq (a b : List Str)
    (h : commonPrefixLen a b = a.length) : a <+: b := by
  induction a generalizing b with
  | nil => exact List.nil_prefix
  | cons x xs ih =>
    cases b with
    | nil => simp [commonPrefixLen] at h
    | cons y ys =>
      by_cases hxy : x = y
      · subst hxy
        simp [commonPrefixLen] at h
        exact List.cons_prefix_cons.mpr ⟨rfl, ih ys h⟩
      · simp [commonPrefixLen, hxy] at h

theorem jsTrim_sandwich (a : Char) (m : Str) (b : Char)
    (ha : isJsWhitespace a = false) (hb : isJsWhitespace b = false) :
    jsTrim (a :: (m ++ [b])) = a :: (m ++ [b]) := by
  have h1 : (a :: (m ++ [b])).dropWhile isJsWhitespace = a :: (m ++ [b]) := by
    rw [List.dropWhile_cons]
    simp [ha]
  rw [jsTrim, h1]
  have h2 : (a :: (m ++ [b])).reverse = b :: (m.reverse ++ [a]) := by
    simp
  rw [h2, List.dropWhile_cons]
  simp [hb]

theorem splitAtFirst_bash (rest : Str) :
    splitAtFirst '(' ('B' :: 'a' :: 's' :: 'h' :: '(' :: rest) =
      some (['B', 'a', 's', 'h'], rest) := by
  simp [splitAtFirst]

theorem parseToolPattern_bashConcat (c : Str) :
    parseToolPattern ('B' :: 'a' :: 's' :: 'h' :: '(' :: (c ++ [')'])) =
      some ⟨['B', 'a', 's', 'h'], some c⟩ := by
  have htrim : jsTrim ('B' :: 'a' :: 's' :: 'h' :: '(' :: (c ++ [')'])) =
      'B' :: 'a' :: 's' :: 'h' :: '(' :: (c ++ [')']) := by
    have h := jsTrim_sandwich 'B' ('a' :: 's' :: 'h' :: '(' :: c) ')' (by decide) (by decide)
    simpa using h
  have hlast : ('B' :: 'a' :: 's' :: 'h' :: '(' :: (c ++ [')'])).getLast? = some ')' := by
    have hform : 'B' :: 'a' :: 's' :: 'h' :: '(' :: (c ++ [')']) =
        (['B', 'a', 's', 'h', '('] ++ c) ++ [')'] := by simp
    rw [hform, List.getLast?_concat]
  simp only [parseToolPattern, htrim]
  rw [splitAtFirst_bash]
  simp only [hlast]
  simp [List.dropLast_concat]
  exact ⟨by decide, by decide⟩

/-! ### Claims -/

/-- C2: the deterministic check consults deny rules first, then ask
rules, then allow rules, whatever the order inside each list; in
particular a matching deny rule forces the deterministic decision `deny`
even when an allow rule also matches. -/
theorem deterministic_bucket_priority (env : ResolveEnv) (toolCall : ToolCallSummary)
    (metadata : Option ToolPreflightMetadata) (permissions : PermissionsState) :
    ((∃ r ∈ permissions.rules.deny,
        matchesPermissionRule env.ign r toolCall env.cwd env.home) →
      (resolveBaseDecision env toolCall metadata permissions).decision = .deny) ∧
    ((∀ r ∈ permissions.rules.deny,
        ¬matchesPermissionRule env.ign r toolCall env.cwd env.home) →
      (∃ r ∈ permissions.rules.ask,
        matchesPermissionRule env.ign r toolCall env.cwd env.home) →
      (resolveBaseDecision env toolCall metadata permissions).decision = .ask) ∧
    ((∀ r ∈ permissions.rules.deny,
        ¬matchesPermissionRule env.ign r toolCall env.cwd env.home) →
      (∀ r ∈ permissions.rules.ask,
        ¬matchesPermissionRule env.ign r toolCall env.cwd env.home) →
      (∃ r ∈ permissions.rules.allow,
        matchesPermissionRule env.ign r toolCall env.cwd env.home) →
      (resolveBaseDecision env toolCall metadata permissions).decision = .allow) := by
  refine ⟨?_, ?_, ?_⟩
  · intro hden
    have hs : (findMatchingRule env toolCall permissions.rules.deny).isSome := by
      rw [findMatchingRule, List.find?_isSome]
      obtain ⟨r, hr, hm⟩ := hden
      exact ⟨r, hr, hm⟩
    rw [resolveBaseDecision]
    rcases hfind : findMatchingRule env toolCall permissions.rules.deny with _ | r
    · rw [hfind] at hs; simp at hs
    · simp
  · intro hden hask
    have hnone : findMatchingRule env toolCall permissions.rules.deny = none := by
      rw [findMatchingRule, List.find?_eq_none]
      intro r hr
      simpa using hden r hr
    have hs : (findMatchingRule env toolCall permissions.rules.ask).isSome := by
      rw [findMatchingRule, List.find?_isSome]
      obtain ⟨r, hr, hm⟩ := hask
      exact ⟨r, hr, hm⟩
    rw [resolveBaseDecision, hnone]
    rcases hfind : findMatchingRule env toolCall permissions.rules.ask with _ | r
    · rw [hfind] at hs; simp at hs
    · simp
  · intro hden hask hall
    have hnoneD : findMatchingRule env toolCall permissions.rules.deny = none := by
      rw [findMatchingRule, List.find?_eq_none]
      intro r hr
      simpa using hden r hr
    have hnoneA : findMatchingRule env toolCall permissions.rules.ask = none := by
      rw [findMatchingRule, List.find?_eq_none]
      intro r hr
      simpa using hask r hr
    have hs : (findMatchingRule env toolCall permissions.rules.allow).isSome := by
      rw [findMatchingRule, List.find?_isSome]
      obtain ⟨r, hr, hm⟩ := hall
      exact ⟨r, hr, hm⟩
    rw [resolveBaseDecision, hnoneD, hnoneA]
    rcases hfind : findMatchingRule env toolCall permissions.rules.allow with _ | r
    · rw [hfind] at hs; simp at hs
    · simp

/-- C2 witness: a deny rule for `Bash(*)` and an allow rule for the same
pattern — the deterministic decision is `deny`. -/
theorem deterministic_bucket_priority_witness :
    (resolveBaseDecision envNoUI (bashCallWith "ls".toList) none
      ⟨⟨[bashStarAllowRule], [], [bashStarDenyRule]⟩, [], []⟩).decision = .deny :=
  (deterministic_bucket_priority envNoUI (bashCallWith "ls".toList) none
      ⟨⟨[bashStarAllowRule], [], [bashStarDenyRule]⟩, [], []⟩).1
    ⟨bashStarDenyRule, by decide, by decide⟩

/-- C1 counterexample: a matching deterministic allow rule (`Bash(*)`)
combined with a matching policy rule whose evaluation denies — without a
UI the final decision is `deny`, so a deterministic `allow` is
overridden by the policy layer. -/
theorem deterministic_allow_overridden_counterexample :
    (resolveBaseDecision envNoUI (bashCallWith "ls".toList) none allowPlusPolicyState).decision
        = .allow ∧
      (resolveBaseDecision envNoUI (bashCallWith "ls".toList) none
            allowPlusPolicyState).rule = some bashStarAllowRule ∧
      (resolveToolDecision envNoUI (bashCallWith "ls".toList) none allowPlusPolicyState
            policyDenyEval).decision = .deny := by
  refine ⟨by decide, by decide, by decide⟩

/-- C1 (amended): a deterministic `deny` is final — neither policy nor
fallback ever overrides it; a deterministic `ask` can be hardened (and,
with a UI, surfaced as `ask`) but is never loosened to `allow`.  A
deterministic or fallback `allow`, however, can be overridden by the
policy layer (see the counterexample). -/
theorem deterministic_deny_final_ask_never_loosened (env : ResolveEnv)
    (toolCall : ToolCallSummary) (metadata : Option ToolPreflightMetadata)
    (permissions : PermissionsState) (policyEval : PolicyRule → PolicyAttempt) :
    ((resolveBaseDecision env toolCall metadata permissions).decision = .deny →
      (resolveToolDecision env toolCall metadata permissions policyEval).decision = .deny) ∧
    ((resolveBaseDecision env toolCall metadata permissions).decision = .ask →
      (resolveToolDecision env toolCall metadata permissions policyEval).decision ≠ .allow) := by
  constructor
  · intro h
    simp [resolveToolDecision, h]
  · intro h
    simp only [resolveToolDecision]
    rw [if_neg (by simp [h])]
    split
    · simp [h]
    · split
      · simp [h]
      · split
        · simp only [h, applyPolicyDecision]
          split
          · simp
          · split <;> simp
        · simp [h]

/-- C1 witness: with a matching deterministic deny rule the final
decision stays `deny` despite a policy evaluation that would allow. -/
theorem deterministic_deny_final_witness :
    (resolveToolDecision envNoUI (bashCallWith "ls".toList) none
        ⟨⟨[], [], [bashStarDenyRule]⟩, [bashPolicyRule], []⟩
        (fun _ => .ok .allow "policy allows".toList)).decision = .deny :=
  (deterministic_deny_final_ask_never_loosened envNoUI (bashCallWith "ls".toList) none
      ⟨⟨[], [], [bashStarDenyRule]⟩, [bashPolicyRule], []⟩
      (fun _ => .ok .allow "policy allows".toList)).1 (by decide)

/-- C10: when the evaluated policy decision for a call is `deny`, the
final decision is `ask` when a UI is available (the deny is surfaced for
confirmation) and `deny` only when no UI is available. -/
theorem policy_deny_surfaced_as_ask_with_ui (env : ResolveEnv) (toolCall : ToolCallSummary)
    (metadata : Option ToolPreflightMetadata) (permissions : PermissionsState)
    (policyEval : PolicyRule → PolicyAttempt) (policyRule : PolicyRule) (policyReason : Str)
    (hbase : (resolveBaseDecision env toolCall metadata permissions).decision ≠ .deny)
    (hover : findMatchingPolicyOverride env toolCall permissions.policyOverrides = none)
    (hrule : findMatchingPolicyRule env toolCall permissions.policyRules = some policyRule)
    (heval : policyEval policyRule = .ok .deny policyReason) :
    (resolveToolDecision env toolCall metadata permissions policyEval).decision =
      (if env.hasUI then .ask else .deny) := by
  simp only [resolveToolDecision]
  rw [if_neg hbase]
  simp only [hover, hrule, heval]
  rcases hd : (resolveBaseDecision env toolCall metadata permissions).decision with _ | _ | _
  · by_cases hu : env.hasUI = true <;> simp [hd, hu, applyPolicyDecision]
  · by_cases hu : env.hasUI = true <;> simp [hd, hu, applyPolicyDecision]
  · exact absurd hd hbase

/-- C10 witness: the test scenario — a bash call, a matching bash policy
rule whose evaluation denies, UI available — resolves to `ask`. -/
theorem policy_deny_surfaced_as_ask_witness :
    (resolveToolDecision envUI (bashCallWith "git clone repo".toList) none
        policyOnlyState policyDenyEval).decision = .ask := by
  have h := policy_deny_surfaced_as_ask_with_ui envUI (bashCallWith "git clone repo".toList)
    none policyOnlyState policyDenyEval bashPolicyRule
    "Only read-only bash commands are allowed".toList
    (by decide) (by decide) (by decide) (by decide)
  simpa using h

/-- C6: with no matching deterministic rule and no matching policy rule,
the decision comes purely from the approval mode: `off` allows, `all`
asks, `destructive` asks exactly when the classifier marked the call
destructive, destructive defaulting to true when metadata is missing. -/
theorem fallback_decision_from_approval_mode :
    (∀ md, buildDefaultDecision md .off = .allow) ∧
    (∀ md, buildDefaultDecision md .all = .ask) ∧
    (∀ md : ToolPreflightMetadata,
      buildDefaultDecision (some md) .destructive = (if md.destructive then .ask else .allow)) ∧
    buildDefaultDecision none .destructive = .ask ∧
    (∀ (env : ResolveEnv) (toolCall : ToolCallSummary)
        (metadata : Option ToolPreflightMetadata) (permissions : PermissionsState)
        (policyEval : PolicyRule → PolicyAttempt),
      findMatchingRule env toolCall permissions.rules.deny = none →
      findMatchingRule env toolCall permissions.rules.ask = none →
      findMatchingRule env toolCall permissions.rules.allow = none →
      findMatchingPolicyRule env toolCall permissions.policyRules = none →
      (resolveToolDecision env toolCall metadata permissions policyEval).decision =
        buildDefaultDecision metadata env.approvalMode) := by
  refine ⟨fun md => rfl, fun md => rfl, fun md => by simp [buildDefaultDecision], rfl,
    ?_⟩
  intro env toolCall metadata permissions policyEval hd ha hal hp
  have hbase : resolveBaseDecision env toolCall metadata permissions =
      ⟨buildDefaultDecision metadata env.approvalMode, none, none⟩ := by
    rw [resolveBaseDecision, hd, ha, hal]
  have hnd : buildDefaultDecision metadata env.approvalMode ≠ .deny := by
    rcases env.approvalMode with _ | _ | _ <;> simp [buildDefaultDecision]
    split <;> simp
  simp only [resolveToolDecision, hbase]
  rw [if_neg (by simpa using hnd)]
  split
  · rfl
  · rw [hp]

/-- C6 witness: the test scenario — approval mode `destructive`, a
non-destructive read and a destructive write with no matching rules —
resolves the read to `allow` and the write to `ask`. -/
theorem fallback_decision_from_approval_mode_witness :
    (resolveToolDecision envDestructive (readCallWith "a.txt".toList)
        (some ⟨"Read file".toList, false⟩) noRulesState policyNoneEval).decision = .allow ∧
    (resolveToolDecision envDestructive (writeCallWith "a.txt".toList)
        (some ⟨"Write file".toList, true⟩) noRulesState policyNoneEval).decision = .ask := by
  constructor
  · have h := fallback_decision_from_approval_mode.2.2.2.2 envDestructive
      (readCallWith "a.txt".toList) (some ⟨"Read file".toList, false⟩) noRulesState
      policyNoneEval (by decide) (by decide) (by decide) (by decide)
    simpa using h
  · have h := fallback_decision_from_approval_mode.2.2.2.2 envDestructive
      (writeCallWith "a.txt".toList) (some ⟨"Write file".toList, true⟩) noRulesState
      policyNoneEval (by decide) (by decide) (by decide) (by decide)
    simpa using h

/-- C9: whenever the consistency oracle is unreachable, its request
fails, or its response cannot be parsed, the result reports
`conflict = false` with the failure embedded in a reason prefixed
`Consistency check unavailable: `, and the approval flow proceeds to
persist the candidate rule. -/
theorem consistency_failure_is_advisory (outcome : ConsistencyOracleOutcome)
    (conflictAction : RuleConflictAction)
    (hfail : match outcome with
      | .response payload => parseRuleConsistencyResponse payload = none
      | _ => True) :
    (evaluateRuleConsistency outcome).conflict = false ∧
    strStartsWith "Consistency check unavailable: ".toList
        (evaluateRuleConsistency outcome).reason = true ∧
    customRuleConsistencyStep (evaluateRuleConsistency outcome) conflictAction =
      .persistThenReevaluate := by
  have hres : ∃ r, evaluateRuleConsistency outcome = buildUnavailableResult r := by
    rcases outcome with _ | m | _ | payload
    · exact ⟨_, rfl⟩
    · exact ⟨_, rfl⟩
    · exact ⟨_, rfl⟩
    · have hp : parseRuleConsistencyResponse payload = none := hfail
      exact ⟨"Rule consistency response was not valid JSON.".toList,
        by simp only [evaluateRuleConsistency, hp]⟩
  obtain ⟨r, hr⟩ := hres
  rw [hr]
  refine ⟨rfl, strStartsWith_append _ _, ?_⟩
  simp [customRuleConsistencyStep, buildUnavailableResult]

/-- C9 witness: a thrown request error yields no conflict, an
`unavailable` reason, and the flow still persists the rule. -/
theorem consistency_failure_is_advisory_witness :
    (evaluateRuleConsistency (.requestFailure "network unreachable".toList)).conflict = false ∧
    strStartsWith "Consistency check unavailable: ".toList
        (evaluateRuleConsistency (.requestFailure "network unreachable".toList)).reason = true ∧
    customRuleConsistencyStep
        (evaluateRuleConsistency (.requestFailure "network unreachable".toList)) .cancel =
      .persistThenReevaluate :=
  consistency_failure_is_advisory (.requestFailure "network unreachable".toList) .cancel
    trivial

/-- C8: right after a custom rule is persisted, classification and
resolution are re-run on the event scoped to only the pending call with
the freshly loaded store; an allow result terminates the approval with
allow, deny terminates with the resolver's reason, ask re-opens the
dialog, and a failed scoped re-classification denies the call with a
reason naming the failure — never silently allowing it. -/
theorem custom_rule_scoped_reapplication (env : ResolveEnv)
    (freshPermissions : PermissionsState) (toolCall : ToolCallSummary)
    (failureReason : Str) (metadata : Option ToolPreflightMetadata)
    (policyEval : PolicyRule → PolicyAttempt) :
    customRuleLoopTail
        (applyCustomRuleToCurrentCall env freshPermissions (.error failureReason) toolCall) =
      .terminal false (some ("Failed to validate custom rule: ".toList ++ failureReason)) ∧
    customRuleLoopTail
        (applyCustomRuleToCurrentCall env freshPermissions (.ok metadata policyEval) toolCall) =
      (match (resolveToolDecision env toolCall metadata freshPermissions policyEval).decision with
        | .allow => .terminal true none
        | .deny =>
          .terminal false
            (some ((resolveToolDecision env toolCall metadata freshPermissions
                policyEval).reason.getD "Blocked by custom rule".toList))
        | .ask =>
          .reopenDialog (resolveToolDecision env toolCall metadata freshPermissions policyEval)
            metadata) := by
  constructor
  · rfl
  · have happly :
        applyCustomRuleToCurrentCall env freshPermissions (.ok metadata policyEval) toolCall =
          .ok metadata (resolveToolDecision env toolCall metadata freshPermissions policyEval) := by
      simp [applyCustomRuleToCurrentCall, resolveToolDecisions]
    rw [happly, customRuleLoopTail]

/-- C7: loading policy rules accepts all three historical `llmRules`
shapes: a legacy flat string array loads every non-empty trimmed string
under the wildcard tool `*`; a legacy `[pattern, policy]` object array
recovers the tool name by parsing the pattern like a permission rule
(`Bash(*)` loads under `bash`); a canonical tool-scoped map loads each
entry under its tool; unrecognized entries are dropped without failing
the load. -/
theorem llmRules_three_shapes_normalized :
    (∀ ss : List Str,
      extractPolicyEntries (some (.arr (listToJsonList (ss.map Json.str)))) =
        ss.filterMap (fun s =>
          let policy := jsTrim s
          if policy.isEmpty then none else some (starTool, policy))) ∧
    extractPolicyEntries (some (.arr (listToJsonList
        [.obj (.cons patternKey (.str "Bash(*)".toList)
          (.cons policyKey (.str "X".toList) .nil))]))) = [(bashTool, "X".toList)] ∧
    extractPolicyEntries (some (.obj
        (.cons "bash".toList
          (.arr (listToJsonList [.str "Rule A".toList, .str "Rule B".toList]))
          (.cons "read".toList (.arr (listToJsonList [.str "Rule C".toList])) .nil)))) =
      [(bashTool, "Rule A".toList), (bashTool, "Rule B".toList),
        (readTool, "Rule C".toList)] ∧
    extractPolicyEntries (some (.arr (listToJsonList
        [.num 3, .bool true, .arr .nil, .obj (.cons policyKey (.num 1) .nil)]))) = [] := by
  refine ⟨?_, by decide, by decide, by decide⟩
  intro ss
  show extractLegacyPolicyEntries (jsonListToList (listToJsonList (ss.map Json.str))) = _
  rw [jsonListToList_listToJsonList]
  rw [extractLegacyPolicyEntries, List.filterMap_map]
  rfl

/-- C7 witness: the spec's own example — `["Ask before destructive
changes"]` loads as one rule with tool `*`. -/
theorem llmRules_three_shapes_normalized_witness :
    extractPolicyEntries (some (.arr (listToJsonList
        [.str "Ask before destructive changes".toList]))) =
      [(starTool, "Ask before destructive changes".toList)] := by
  have h := llmRules_three_shapes_normalized.1 ["Ask before destructive changes".toList]
  simpa using h

/-- C5 counterexample: `*` does not match every run of characters — a
run containing a newline is rejected (JavaScript `.` excludes line
terminators), while the same positions without the newline match. -/
theorem bash_wildcard_newline_counterexample :
    matchBashPattern "ls *".toList ("ls ".toList ++ "a\nb".toList) = false ∧
    matchBashPattern "ls *".toList ("ls ".toList ++ "axb".toList) = true :=
  ⟨by decide, by decide⟩

/-- C5 (amended): a trailing `:*` in a bash specifier is rewritten to a
trailing ` *` before wildcard expansion, and `*` matches any run of
characters free of line terminators, matched against the call's
`command` (or `cmd`) argument; `Bash(ls:*)` matches `ls -la` and not
`cat file`. -/
theorem bash_wildcard_matching_amended :
    (∀ command : Str, (∀ c ∈ command, isLineTerminator c = false) →
      matchBashPattern "ls:*".toList ("ls ".toList ++ command) = true) ∧
    matchBashPattern "ls:*".toList "ls -la".toList = true ∧
    matchBashPattern "ls:*".toList "cat file".toList = false ∧
    matchesToolRule gitignoreIgnores bashLsStarRule.toMatchable
      (bashCmdCallWith "ls -la".toList) wsCwd homeDir = true := by
  refine ⟨?_, by decide, by decide, by decide⟩
  intro command h
  have hnorm : normalizeBashPattern "ls:*".toList = "ls ".toList ++ ['*'] := by decide
  rw [matchBashPattern, hnorm, wildMatch_append_literal _ _ _ (by decide)]
  exact wildMatch_star_all command h

/-- C5 witness: instantiating the amended wildcard property at the
newline-free run `-la`. -/
theorem bash_wildcard_matching_witness :
    matchBashPattern "ls:*".toList ("ls ".toList ++ "-la".toList) = true :=
  bash_wildcard_matching_amended.1 "-la".toList (by decide)

/-- C4: a target path that resolves outside a path rule's base directory
never matches, whatever the underlying gitignore matcher does (no `..`
escape); and concretely, `Read(//tmp/notes.txt)` matches the absolute
path `/tmp/notes.txt` but not the relative path `tmp/notes.txt`
(resolving into the workspace), while `Read(./src/*.ts)` matches
`src/index.ts` but not an escaping `../other/src/index.ts`. -/
theorem path_rule_no_dotdot_escape :
    (∀ (ign : Str → Str → Bool) (pattern targetPath : Str)
        (settingsDir cwd home : List Str) (pat : Str) (baseDir : List Str),
      normalizePathPattern pattern settingsDir cwd home = some (pat, baseDir) →
      ¬baseDir <+: resolveAbs cwd targetPath →
      matchPathPattern ign pattern targetPath settingsDir cwd home = false) ∧
    matchesPermissionRule gitignoreIgnores readNotesRule
      (readCallWith "/tmp/notes.txt".toList) wsCwd homeDir = true ∧
    matchesPermissionRule gitignoreIgnores readNotesRule
      (readCallWith "tmp/notes.txt".toList) wsCwd homeDir = false ∧
    matchesPermissionRule gitignoreIgnores readSrcRule
      (readCallWith "src/index.ts".toList) wsCwd homeDir = true ∧
    matchesPermissionRule gitignoreIgnores readSrcRule
      (readCallWith "../other/src/index.ts".toList) wsCwd homeDir = false := by
  refine ⟨?_, by decide, by decide, by decide, by decide⟩
  intro ign pattern targetPath settingsDir cwd home pat baseDir hnorm houtside
  have hbase : baseDir ≠ [] := by
    intro h
    rw [h] at houtside
    exact houtside List.nil_prefix
  have hk : commonPrefixLen baseDir (resolveAbs cwd targetPath) < baseDir.length := by
    rcases Nat.lt_or_ge (commonPrefixLen baseDir (resolveAbs cwd targetPath))
        baseDir.length with h | h
    · exact h
    · have hle := commonPrefixLen_le_left baseDir (resolveAbs cwd targetPath)
      exact absurd (prefix_of_commonPrefixLen_eq _ _ (le_antisymm hle h)) houtside
  simp only [matchPathPattern, hnorm]
  have hrel : ∃ rest,
      relativeComps baseDir (resolveAbs cwd targetPath) = ['.', '.'] :: rest := by
    rw [relativeComps]
    have hsplit : baseDir.length - commonPrefixLen baseDir (resolveAbs cwd targetPath) =
        (baseDir.length - commonPrefixLen baseDir (resolveAbs cwd targetPath) - 1) + 1 := by
      omega
    rw [hsplit, List.replicate_succ]
    exact ⟨_, rfl⟩
  obtain ⟨rest, hrest⟩ := hrel
  rw [hrest]
  have hstart : strStartsWith ['.', '.'] (joinSlash (['.', '.'] :: rest)) = true := by
    cases rest with
    | nil => decide
    | cons r rs => exact strStartsWith_append ['.', '.'] ('/' :: joinSlash (r :: rs))
  rw [if_pos ⟨hstart, hbase⟩]

/-- C4 witness: the escaping relative path `../other/src/index.ts` is
outside the workspace base of `./src/*.ts`, so the rule does not
match. -/
theorem path_rule_no_dotdot_escape_witness :
    matchPathPattern gitignoreIgnores "./src/*.ts".toList "../other/src/index.ts".toList
      (dirnameComps wsSettingsPath) wsCwd homeDir = false :=
  path_rule_no_dotdot_escape.1 gitignoreIgnores "./src/*.ts".toList
    "../other/src/index.ts".toList (dirnameComps wsSettingsPath) wsCwd homeDir
    "src/*.ts".toList wsCwd (by decide) (by decide)

/-- C3 counterexample: the round trip fails for the bash call
`{command: "ls:*"}` — `buildRuleForToolCall` yields `Bash(ls:*)`, but the
compiled rule's specifier is rewritten (`:*` → ` *`) before matching, so
the very call that produced the rule does not match it. -/
theorem build_rule_round_trip_counterexample :
    buildRuleForToolCall (bashCallWith "ls:*".toList) = some "Bash(ls:*)".toList ∧
    roundTripMatches (bashCallWith "ls:*".toList) wsCwd homeDir wsSettingsPath = false :=
  ⟨by decide, by decide⟩

/-- C3 (amended): persisting a rule for a tool call and re-matching that
call against the freshly compiled rule succeeds for every bash call
whose command is unchanged by trimming and does not end in `:*`, and for
path and args calls whose specifier survives normalization unchanged
(e.g. the workspace-relative read of `src/index.ts` and the
JSON-stringified custom-tool call); it can fail when normalization
rewrites the built specifier (see the counterexample). -/
theorem build_rule_round_trip_amended :
    (∀ command : Str, jsTrim command = command → command ≠ [] →
      strEndsWith [':', '*'] command = false →
      roundTripMatches (bashCallWith command) wsCwd homeDir wsSettingsPath = true) ∧
    roundTripMatches (readCallWith "src/index.ts".toList) wsCwd homeDir wsSettingsPath = true ∧
    roundTripMatches myToolCall wsCwd homeDir wsSettingsPath = true := by
  refine ⟨?_, by decide, by decide⟩
  intro c htrim hne hnosuffix
  by_cases hstar : c = ['*']
  · subst hstar
    decide
  have hcE : c.isEmpty = false := by
    cases c with
    | nil => exact absurd rfl hne
    | cons x xs => rfl
  have hbuild : buildRuleForToolCall (bashCallWith c) =
      some ('B' :: 'a' :: 's' :: 'h' :: '(' :: (c ++ [')'])) := by
    simp only [buildRuleForToolCall, bashCallWith]
    rw [show getBashCommand (JsonFields.cons "command".toList (Json.str c) .nil) = some c
      from rfl]
    rw [if_pos (by decide : normalizeToolName "bash".toList = bashTool)]
    simp [hcE]
    rw [show formatRuleToolName ['b', 'a', 's', 'h'] = ['B', 'a', 's', 'h'] from by decide]
    simp
  have hcompile : compilePermissionRule ('B' :: 'a' :: 's' :: 'h' :: '(' :: (c ++ [')']))
      .allow .workspace wsSettingsPath none =
      some ⟨.allow, 'B' :: 'a' :: 's' :: 'h' :: '(' :: (c ++ [')']), bashTool, some c,
        .workspace, wsSettingsPath, dirnameComps wsSettingsPath, none, none⟩ := by
    simp only [compilePermissionRule, parseToolPattern_bashConcat]
    rw [show normalizeToolName ['B', 'a', 's', 'h'] = bashTool from by decide]
    have hspec : normalizeSpecifier (some c) = some c := by
      simp only [normalizeSpecifier, htrim]
      simp [hcE, hstar]
    rw [hspec]
    have hargs : parseArgsMatch bashTool (some c) = none := by
      simp [parseArgsMatch, isKnownTool]
    rw [hargs]
    simp [isKnownTool]
  have hmatch : matchesPermissionRule gitignoreIgnores
      ⟨.allow, 'B' :: 'a' :: 's' :: 'h' :: '(' :: (c ++ [')']), bashTool, some c,
        .workspace, wsSettingsPath, dirnameComps wsSettingsPath, none, none⟩
      (bashCallWith c) wsCwd homeDir = true := by
    simp only [matchesPermissionRule, matchesToolRule, PermissionRule.toMatchable, bashCallWith]
    rw [if_neg (by simp; decide)]
    rw [show getBashCommand (JsonFields.cons "command".toList (Json.str c) .nil) = some c
      from rfl]
    simp only [if_true]
    simp [hcE]
    rw [matchBashPattern]
    have hnormp : normalizeBashPattern c = c := by
      simp only [normalizeBashPattern, htrim, hnosuffix]
      simp
    rw [hnormp]
    exact wildMatch_self c
  simp only [roundTripMatches, hbuild, hcompile, hmatch]

/-- C3 witness: the round trip succeeds for the bash call
`{command: "ls -la"}`. -/
theorem build_rule_round_trip_witness :
    roundTripMatches (bashCallWith "ls -la".toList) wsCwd homeDir wsSettingsPath = true :=
  build_rule_round_trip_amended.1 "ls -la".toList (by decide) (by decide) (by decide)
